import Mathlib

/-!
Verification of `fix-pdf-escape.py`, a one-shot patch script.

The script reads one hard-coded file, performs one regular-expression
substitution (`re.sub(old_pattern, new_line, content)`) and writes the
result back, then prints two fixed status lines.

File contents are modelled as `List Char`.  The source regex
`old_pattern` escapes every metacharacter, so the exact text it can
match is the single literal `oldPattern` below; the replacement string
`new_line` contains no backreference escapes, so it is the literal
`newLine`.  `re.sub` scans left to right and replaces each
non-overlapping match, resuming after the replaced region; `fixSub` is
that scan for a fixed literal pattern, and the regex side is modelled by
a Brzozowski-derivative matcher further down.
-/

/-- Quote character (codepoint 39), written via `Char.ofNat`. -/
def quoteChar : Char := Char.ofNat 39

/-- The one string the source regex `old_pattern` can match: the regex
`return text\.replace\(/&/g, '&amp;'\)\.replace\(/<\/g, '&lt;'\)\.replace\(/>\/g, '&gt;'\);`
with every escape `\.` `\(` `\)` `\/` read as its literal character. -/
def oldPattern : List Char :=
  "return text.replace(/&/g, ".data ++ [quoteChar] ++ "&amp;".data ++ [quoteChar]
    ++ ").replace(/</g, ".data ++ [quoteChar] ++ "&lt;".data ++ [quoteChar]
    ++ ").replace(/>/g, ".data ++ [quoteChar] ++ "&gt;".data ++ [quoteChar]
    ++ ");".data

/-- The replacement string `new_line = "return text;"` of the source. -/
def newLine : List Char := "return text;".data

/-- Number of start positions in `s` at which `p` occurs as a substring
(every position is counted, whether or not occurrences overlap). -/
def countOccs (p : List Char) : List Char → Nat
  | [] => 0
  | c :: rest => (if p <+: (c :: rest) then 1 else 0) + countOccs p rest

/-- Global fixed-string substitution: scan left to right; wherever
`oldPattern` starts, emit `newLine` and resume after the matched region,
otherwise keep the character.  This follows the spec wording of a plain
textual substitution rule applied to all non-overlapping matches. -/
def fixSub : List Char → List Char
  | [] => []
  | c :: rest =>
    if oldPattern <+: (c :: rest) then
      newLine ++ fixSub (List.drop (oldPattern.length - 1) rest)
    else
      c :: fixSub rest
termination_by s => s.length
decreasing_by
  · simp only [List.length_drop, List.length_cons]
    omega
  · simp only [List.length_cons]
    omega

/-- Abstract syntax of the regular expressions of the host language that
are relevant here: empty language, empty string, single literal
character, alternation `|`, concatenation, and the `*` quantifier. -/
inductive Regex where
  | emp : Regex
  | eps : Regex
  | lit : Char → Regex
  | alt : Regex → Regex → Regex
  | seq : Regex → Regex → Regex
  | star : Regex → Regex
deriving DecidableEq

/-- Whether a regex accepts the empty string. -/
def rxNullable : Regex → Bool
  | .emp => false
  | .eps => true
  | .lit _ => false
  | .alt r1 r2 => rxNullable r1 || rxNullable r2
  | .seq r1 r2 => rxNullable r1 && rxNullable r2
  | .star _ => true

/-- Brzozowski derivative of a regex by one character. -/
def rxDeriv : Regex → Char → Regex
  | .emp, _ => .emp
  | .eps, _ => .emp
  | .lit c, a => if a = c then .eps else .emp
  | .alt r1 r2, a => .alt (rxDeriv r1 a) (rxDeriv r2 a)
  | .seq r1 r2, a =>
      .alt (.seq (rxDeriv r1 a) r2) (if rxNullable r1 then rxDeriv r2 a else .emp)
  | .star r, a => .seq (rxDeriv r a) (.star r)

/-- Length of the shortest match of `r` anchored at the start of `s`,
offset by `k` (the number of characters already consumed): `some (k+n)`
when `r` matches the first `n` characters of `s`, `none` when `r`
matches no prefix of `s`.  For the regex of the source every match has
the same unique length, so shortest-match agrees with the host engine. -/
def matchLenFrom : Regex → List Char → Nat → Option Nat
  | r, [], k => if rxNullable r then some k else none
  | r, c :: rest, k =>
      if rxNullable r then some k else matchLenFrom (rxDeriv r c) rest (k + 1)

/-- The regex denoting one fixed literal string: a concatenation of
single-character literals. -/
def litSeq : List Char → Regex
  | [] => .eps
  | c :: cs => .seq (.lit c) (litSeq cs)

/-- The source regex `old_pattern`: every metacharacter in it is
escaped (`\.` `\(` `\)` `\/`), so its parse is the concatenation of the
literal characters of `oldPattern`, with no alternation, class, or
quantifier node. -/
def oldRegex : Regex := litSeq oldPattern

/-- The substitution `re.sub(old_pattern, new_line, content)`: scan the
content left to right; at each position attempt an anchored match of
the regex; on a match of length `n` emit `new_line` and resume after
the matched region, otherwise keep the character and move on.  (The
regex never matches the empty string, so a match consumes at least one
character; `List.drop (n - 1) rest` is the text after the match.) -/
def reSub : List Char → List Char
  | [] => []
  | c :: rest =>
    match matchLenFrom oldRegex (c :: rest) 0 with
    | some n => newLine ++ reSub (List.drop (n - 1) rest)
    | none => c :: reSub rest
termination_by s => s.length
decreasing_by
  · simp only [List.length_drop, List.length_cons]
    omega
  · simp only [List.length_cons]
    omega

/-- Minimum of two optional lengths (`none` = no match). -/
def optMin : Option Nat → Option Nat → Option Nat
  | none, b => b
  | some a, none => some a
  | some a, some b => some (min a b)

/-- Outcome of reading the target file: missing or unreadable, present
but not decodable as UTF-8, or decoded text. -/
inductive FileState where
  | absent : FileState
  | undecodable : FileState
  | text : List Char → FileState
deriving DecidableEq

/-- The two failure kinds of the script: a file-access failure raised
by `open`, or a decoding failure raised while reading as UTF-8. -/
inductive FileError where
  | fileAccess : FileError
  | encoding : FileError
deriving DecidableEq

/-- The observable state the script touches: the target file on disk
and the lines printed to standard output. -/
structure World where
  file : FileState
  stdout : List (List Char)
deriving DecidableEq

/-- First status line printed: `File updated successfully!`. -/
def successMsg : List Char := "File updated successfully!".data

/-- Second status line printed: the f-string `f'Replacements made'`,
which contains no placeholder, so it is the literal `Replacements made`
with no count interpolated. -/
def countMsg : List Char := "Replacements made".data

/-- The whole script as a state transformer: read the file (raising on
a missing file or on undecodable content, in which case nothing is
written and nothing is printed), substitute, write the result back
unconditionally, then print the two status lines. -/
def runScript (w : World) : Option FileError × World :=
  match w.file with
  | .absent => (some .fileAccess, w)
  | .undecodable => (some .encoding, w)
  | .text content =>
      (none, { file := .text (reSub content),
               stdout := w.stdout ++ [successMsg, countMsg] })

/-- Number of start positions inside `x` at which `p` occurs in the
concatenation `x ++ y` (occurrences may reach into `y`).  Bookkeeping
device for splitting `countOccs` over an append. -/
def countFrom (p y : List Char) : List Char → Nat
  | [] => 0
  | c :: x' => (if p <+: c :: (x' ++ y) then 1 else 0) + countFrom p y x'

/-- Decomposition of a text into its lines (separator `\n`, the
separator not kept): `linesOf s` always has one more entry than the
number of newline characters of `s`. -/
def linesOf : List Char → List (List Char)
  | [] => [[]]
  | c :: rest =>
    if c = '\n' then [] :: linesOf rest
    else
      match linesOf rest with
      | [] => [[c]]
      | l :: ls => (c :: l) :: ls

theorem oldPattern_length : oldPattern.length = 79 := by decide

theorem newLine_length : newLine.length = 12 := by decide

theorem oldPattern_ne_nil : oldPattern ≠ [] := by decide


/-! ### Unfolding lemmas -/

theorem countOccs_nil (p : List Char) : countOccs p [] = 0 := rfl

theorem countOccs_cons (p : List Char) (c : Char) (rest : List Char) :
    countOccs p (c :: rest) =
      (if p <+: (c :: rest) then 1 else 0) + countOccs p rest := rfl

theorem fixSub_nil : fixSub [] = [] := by rw [fixSub]

theorem fixSub_cons_pos {c : Char} {rest : List Char}
    (h : oldPattern <+: (c :: rest)) :
    fixSub (c :: rest) = newLine ++ fixSub (List.drop (oldPattern.length - 1) rest) := by
  rw [fixSub]
  simp [h]

theorem fixSub_cons_neg {c : Char} {rest : List Char}
    (h : ¬ oldPattern <+: (c :: rest)) :
    fixSub (c :: rest) = c :: fixSub rest := by
  rw [fixSub]
  simp [h]

theorem fixSub_pref {s : List Char} (h : oldPattern <+: s) :
    fixSub s = newLine ++ fixSub (List.drop oldPattern.length s) := by
  cases s with
  | nil =>
      exact absurd (List.prefix_nil.mp h) oldPattern_ne_nil
  | cons c rest =>
      rw [fixSub_cons_pos h, oldPattern_length]
      rw [show (79 : Nat) = 78 + 1 from rfl, List.drop_succ_cons]

/-! ### The regex of the source matches exactly the fixed literal -/

theorem optMin_none_right (x : Option Nat) : optMin x none = x := by
  cases x <;> rfl

theorem matchLenFrom_emp (s : List Char) (k : Nat) :
    matchLenFrom .emp s k = none := by
  induction s generalizing k with
  | nil => rfl
  | cons c rest ih => simpa [matchLenFrom, rxNullable, rxDeriv] using ih (k + 1)

theorem matchLenFrom_le {r : Regex} {s : List Char} {k m : Nat}
    (h : matchLenFrom r s k = some m) : k ≤ m := by
  induction s generalizing r k with
  | nil =>
      by_cases hn : rxNullable r <;> simp [matchLenFrom, hn] at h
      omega
  | cons c rest ih =>
      by_cases hn : rxNullable r <;> simp [matchLenFrom, hn] at h
      · omega
      · exact Nat.le_of_succ_le (ih h)

theorem matchLenFrom_alt (s : List Char) (r1 r2 : Regex) (k : Nat) :
    matchLenFrom (.alt r1 r2) s k =
      optMin (matchLenFrom r1 s k) (matchLenFrom r2 s k) := by
  induction s generalizing r1 r2 k with
  | nil =>
      by_cases h1 : rxNullable r1 <;> by_cases h2 : rxNullable r2 <;>
        simp [matchLenFrom, rxNullable, h1, h2, optMin]
  | cons c rest ih =>
      by_cases h1 : rxNullable r1 <;> by_cases h2 : rxNullable r2
      · simp [matchLenFrom, rxNullable, h1, h2, optMin]
      · -- left nullable only: the right side can match no earlier than k+1
        simp only [matchLenFrom, rxNullable, h1, h2, Bool.true_or, if_true, if_false,
          Bool.false_eq_true]
        cases hX : matchLenFrom (rxDeriv r2 c) rest (k + 1) with
        | none => simp [optMin]
        | some m =>
            have hm := matchLenFrom_le hX
            simp [optMin]
            omega
      · -- right nullable only
        simp only [matchLenFrom, rxNullable, h1, h2, Bool.or_true, if_true, if_false,
          Bool.false_eq_true]
        cases hX : matchLenFrom (rxDeriv r1 c) rest (k + 1) with
        | none => simp [optMin]
        | some m =>
            have hm := matchLenFrom_le hX
            simp [optMin]
            omega
      · simp [matchLenFrom, rxNullable, rxDeriv, h1, h2, ih]

theorem matchLenFrom_seq_emp (r : Regex) (s : List Char) (k : Nat) :
    matchLenFrom (.seq .emp r) s k = none := by
  induction s generalizing k with
  | nil => simp [matchLenFrom, rxNullable]
  | cons c rest ih =>
      simp only [matchLenFrom, rxNullable, rxDeriv, Bool.false_and, if_false,
        Bool.false_eq_true]
      rw [matchLenFrom_alt, matchLenFrom_emp, optMin_none_right]
      exact ih (k + 1)

theorem matchLenFrom_seq_eps (r : Regex) (s : List Char) (k : Nat) :
    matchLenFrom (.seq .eps r) s k = matchLenFrom r s k := by
  cases s with
  | nil => simp [matchLenFrom, rxNullable]
  | cons c rest =>
      by_cases hn : rxNullable r
      · simp [matchLenFrom, rxNullable, hn]
      · simp only [matchLenFrom, rxNullable, Bool.true_and, hn, if_false,
          Bool.false_eq_true, rxDeriv, if_true]
        rw [matchLenFrom_alt, matchLenFrom_seq_emp]
        rfl

theorem matchLenFrom_litSeq (w : List Char) :
    ∀ (v : List Char) (k : Nat),
      matchLenFrom (litSeq w) v k = if w <+: v then some (k + w.length) else none := by
  induction w with
  | nil =>
      intro v k
      cases v <;> simp [litSeq, matchLenFrom, rxNullable]
  | cons c w' ih =>
      intro v k
      cases v with
      | nil => simp [litSeq, matchLenFrom, rxNullable]
      | cons a v' =>
          simp only [litSeq, matchLenFrom, rxNullable, Bool.false_and, if_false,
            Bool.false_eq_true, rxDeriv]
          rw [matchLenFrom_alt, matchLenFrom_emp, optMin_none_right]
          by_cases hac : a = c
          · subst hac
            rw [if_pos rfl, matchLenFrom_seq_eps, ih v' (k + 1)]
            by_cases hw : w' <+: v'
            · simp [hw, List.cons_prefix_cons]
              omega
            · simp [hw, List.cons_prefix_cons]
          · rw [if_neg hac, matchLenFrom_seq_emp]
            have : ¬ (c :: w' <+: a :: v') := by
              simp [List.cons_prefix_cons]
              intro hca
              exact absurd hca.symm hac
            simp [this]

theorem matchLen_oldRegex (s : List Char) :
    matchLenFrom oldRegex s 0 =
      if oldPattern <+: s then some oldPattern.length else none := by
  rw [oldRegex, matchLenFrom_litSeq]
  simp

/-- The regex substitution and the plain fixed-string substitution
agree on every content. -/
theorem reSub_eq_fixSub (s : List Char) : reSub s = fixSub s := by
  induction s using reSub.induct with
  | case1 => rw [reSub, fixSub]
  | case2 c rest n hm ih =>
      rw [reSub]
      simp only [hm]
      rw [matchLen_oldRegex] at hm
      by_cases hp : oldPattern <+: (c :: rest)
      · rw [if_pos hp] at hm
        have hn : n = oldPattern.length := by
          injection hm with h
          omega
        rw [fixSub_cons_pos hp, ih, hn]
      · rw [if_neg hp] at hm
        exact absurd hm (by simp)
  | case3 c rest hm ih =>
      rw [reSub]
      simp only [hm]
      rw [matchLen_oldRegex] at hm
      by_cases hp : oldPattern <+: (c :: rest)
      · rw [if_pos hp] at hm
        exact absurd hm (by simp)
      · rw [fixSub_cons_neg hp, ih]

/-! ### No new occurrence is ever created by the substitution -/

theorem prefix_of_prefix_append {u x t : List Char} (h : u <+: x ++ t) :
    u <+: x ∨ x <+: u :=
  List.prefix_or_prefix_of_prefix h (List.prefix_append x t)

/-- No nonempty suffix of the pattern is comparable (by the prefix
order) with the replacement: checked by computation. -/
theorem pattern_newLine_incomparable :
    ∀ j ∈ List.range oldPattern.length,
      ¬ (List.drop j oldPattern <+: newLine) ∧
      ¬ (newLine <+: List.drop j oldPattern) := by decide

/-- No suffix of the replacement is a prefix of the pattern: checked by
computation. -/
theorem newLine_suffix_not_pattern :
    ∀ i ∈ List.range newLine.length,
      ¬ (List.drop i newLine <+: oldPattern) := by decide

/-- The substitution never creates a new partial match: a suffix of the
pattern that starts the output already started the input. -/
theorem drop_prefix_fixSub :
    ∀ s : List Char, ∀ j : Nat, j < oldPattern.length →
      List.drop j oldPattern <+: fixSub s → List.drop j oldPattern <+: s := by
  intro s
  induction s using fixSub.induct with
  | case1 =>
      intro j hj h
      rw [fixSub_nil] at h
      have hnil := List.prefix_nil.mp h
      have hlen : oldPattern.length - j = 0 := by
        simpa using congrArg List.length hnil
      omega
  | case2 c rest hp ih =>
      intro j hj h
      rw [fixSub_cons_pos hp] at h
      exfalso
      have hjr : j ∈ List.range oldPattern.length := by
        simpa [List.mem_range] using hj
      rcases prefix_of_prefix_append h with h1 | h1
      · exact (pattern_newLine_incomparable j hjr).1 h1
      · exact (pattern_newLine_incomparable j hjr).2 h1
  | case3 c rest hp ih =>
      intro j hj h
      rw [fixSub_cons_neg hp] at h
      rw [List.drop_eq_getElem_cons hj] at h ⊢
      rw [List.cons_prefix_cons] at h ⊢
      obtain ⟨hc, h2⟩ := h
      refine ⟨hc, ?_⟩
      by_cases hlast : j + 1 < oldPattern.length
      · exact ih (j + 1) hlast h2
      · have : List.drop (j + 1) oldPattern = [] := by
          rw [List.drop_eq_nil_iff]
          omega
        rw [this]
        exact List.nil_prefix

/-- Occurrences of the pattern in `x ++ t` all lie beyond `x` when no
suffix of `x` is a prefix of the pattern and `x` is shorter than it. -/
theorem countOccs_append_of_no_suffix :
    ∀ (x t : List Char),
      (∀ i, i < x.length → ¬ (List.drop i x <+: oldPattern)) →
      x.length < oldPattern.length →
      countOccs oldPattern (x ++ t) = countOccs oldPattern t := by
  intro x
  induction x with
  | nil => simp
  | cons c x' ih =>
      intro t hx hlen
      rw [List.cons_append, countOccs_cons]
      have hnp : ¬ oldPattern <+: c :: (x' ++ t) := by
        intro hp
        rw [show c :: (x' ++ t) = (c :: x') ++ t from rfl] at hp
        rcases prefix_of_prefix_append hp with h1 | h1
        · have hle := h1.length_le
          simp only [List.length_cons] at hle hlen
          omega
        · exact hx 0 (by simp) (by simpa using h1)
      rw [if_neg hnp, Nat.zero_add]
      refine ih t ?_ ?_
      · intro i hi
        have := hx (i + 1) (by simpa using Nat.succ_lt_succ hi)
        simpa using this
      · simp at hlen
        omega

theorem countOccs_newLine_append (t : List Char) :
    countOccs oldPattern (newLine ++ t) = countOccs oldPattern t := by
  refine countOccs_append_of_no_suffix newLine t ?_ ?_
  · intro i hi
    exact newLine_suffix_not_pattern i (by simpa [List.mem_range] using hi)
  · rw [newLine_length, oldPattern_length]
    omega

/-- The output of the substitution contains no occurrence of the
pattern at all. -/
theorem countOccs_fixSub (s : List Char) :
    countOccs oldPattern (fixSub s) = 0 := by
  induction s using fixSub.induct with
  | case1 => rw [fixSub_nil, countOccs_nil]
  | case2 c rest hp ih => rw [fixSub_cons_pos hp, countOccs_newLine_append, ih]
  | case3 c rest hp ih =>
      rw [fixSub_cons_neg hp, countOccs_cons, ih]
      have hnp : ¬ oldPattern <+: c :: fixSub rest := by
        intro h
        rw [← fixSub_cons_neg hp] at h
        have := drop_prefix_fixSub (c :: rest) 0 (by rw [oldPattern_length]; omega)
          (by simpa using h)
        exact hp (by simpa using this)
      rw [if_neg hnp]

/-- A content with no occurrence of the pattern passes through the
substitution unchanged. -/
theorem fixSub_of_countOccs_zero :
    ∀ s : List Char, countOccs oldPattern s = 0 → fixSub s = s := by
  intro s
  induction s with
  | nil => intro _; exact fixSub_nil
  | cons c rest ih =>
      intro h
      rw [countOccs_cons] at h
      by_cases hp : oldPattern <+: (c :: rest)
      · rw [if_pos hp] at h
        omega
      · rw [if_neg hp] at h
        rw [fixSub_cons_neg hp, ih (by omega)]

theorem fixSub_idem (s : List Char) : fixSub (fixSub s) = fixSub s :=
  fixSub_of_countOccs_zero (fixSub s) (countOccs_fixSub s)

/-! ### Counting occurrences across appends -/

theorem countOccs_eq_countFrom_add (x y : List Char) :
    countOccs oldPattern (x ++ y) =
      countFrom oldPattern y x + countOccs oldPattern y := by
  induction x with
  | nil => simp [countFrom]
  | cons c x' ih =>
      rw [List.cons_append, countOccs_cons, countFrom, ih]
      omega

theorem countFrom_pos {x y : List Char} (hx : x ≠ [])
    (hp : oldPattern <+: x ++ y) : 1 ≤ countFrom oldPattern y x := by
  cases x with
  | nil => exact absurd rfl hx
  | cons c x' =>
      rw [List.cons_append] at hp
      rw [countFrom, if_pos hp]
      omega

theorem one_le_countOccs_of_pref {s : List Char}
    (hp : oldPattern <+: s) : 1 ≤ countOccs oldPattern s := by
  cases s with
  | nil => exact absurd (List.prefix_nil.mp hp) oldPattern_ne_nil
  | cons c rest =>
      rw [countOccs_cons, if_pos hp]
      omega

theorem countOccs_le_append (p x y : List Char) :
    countOccs p y ≤ countOccs p (x ++ y) := by
  induction x with
  | nil => simp
  | cons c x' ih =>
      rw [List.cons_append, countOccs_cons]
      omega

/-! ### Substitution of an isolated occurrence, and of two occurrences -/

/-- One occurrence, arbitrary surroundings: exactly that occurrence is
replaced and everything else is untouched. -/
theorem fixSub_single :
    ∀ a b : List Char,
      countOccs oldPattern (a ++ (oldPattern ++ b)) = 1 →
      fixSub (a ++ (oldPattern ++ b)) = a ++ (newLine ++ b) := by
  intro a
  induction a with
  | nil =>
      intro b h
      rw [List.nil_append] at h ⊢
      rw [fixSub_pref (List.prefix_append oldPattern b), List.drop_left]
      have hzero : countOccs oldPattern b = 0 := by
        rw [countOccs_eq_countFrom_add] at h
        have h1 := countFrom_pos oldPattern_ne_nil
          (List.prefix_append oldPattern b) (y := b) (x := oldPattern)
        omega
      rw [fixSub_of_countOccs_zero b hzero, List.nil_append]
  | cons c a' ih =>
      intro b h
      rw [List.cons_append] at h ⊢
      by_cases hp : oldPattern <+: c :: (a' ++ (oldPattern ++ b))
      · exfalso
        rw [countOccs_cons, if_pos hp] at h
        have h1 : 1 ≤ countOccs oldPattern (a' ++ (oldPattern ++ b)) :=
          le_trans (one_le_countOccs_of_pref (List.prefix_append oldPattern b))
            (countOccs_le_append oldPattern a' (oldPattern ++ b))
        omega
      · rw [countOccs_cons, if_neg hp] at h
        rw [fixSub_cons_neg hp, ih b (by omega), List.cons_append]

/-- Two occurrences, arbitrary surroundings: both are replaced. -/
theorem fixSub_double :
    ∀ a b c : List Char,
      countOccs oldPattern (a ++ (oldPattern ++ (b ++ (oldPattern ++ c)))) = 2 →
      fixSub (a ++ (oldPattern ++ (b ++ (oldPattern ++ c)))) =
        a ++ (newLine ++ (b ++ (newLine ++ c))) := by
  intro a
  induction a with
  | nil =>
      intro b c h
      rw [List.nil_append] at h ⊢
      rw [fixSub_pref (List.prefix_append _ _), List.drop_left]
      have hone : countOccs oldPattern (b ++ (oldPattern ++ c)) = 1 := by
        rw [countOccs_eq_countFrom_add] at h
        have h1 := countFrom_pos oldPattern_ne_nil
          (List.prefix_append oldPattern (b ++ (oldPattern ++ c)))
          (y := b ++ (oldPattern ++ c)) (x := oldPattern)
        have h2 : 1 ≤ countOccs oldPattern (b ++ (oldPattern ++ c)) :=
          le_trans (one_le_countOccs_of_pref (List.prefix_append oldPattern c))
            (countOccs_le_append oldPattern b (oldPattern ++ c))
        omega
      rw [fixSub_single b c hone, List.nil_append]
  | cons c0 a' ih =>
      intro b c h
      rw [List.cons_append] at h ⊢
      by_cases hp : oldPattern <+: c0 :: (a' ++ (oldPattern ++ (b ++ (oldPattern ++ c))))
      · exfalso
        rw [countOccs_cons, if_pos hp] at h
        have h2 : 2 ≤ countOccs oldPattern (a' ++ (oldPattern ++ (b ++ (oldPattern ++ c)))) := by
          refine le_trans ?_
            (countOccs_le_append oldPattern a' (oldPattern ++ (b ++ (oldPattern ++ c))))
          rw [countOccs_eq_countFrom_add]
          have h1 := countFrom_pos oldPattern_ne_nil
            (List.prefix_append oldPattern (b ++ (oldPattern ++ c)))
            (y := b ++ (oldPattern ++ c)) (x := oldPattern)
          have h3 : 1 ≤ countOccs oldPattern (b ++ (oldPattern ++ c)) :=
            le_trans (one_le_countOccs_of_pref (List.prefix_append oldPattern c))
              (countOccs_le_append oldPattern b (oldPattern ++ c))
          omega
        omega
      · rw [countOccs_cons, if_neg hp] at h
        rw [fixSub_cons_neg hp, ih b c (by omega), List.cons_append]

/-! ### Length of the output -/

theorem fixSub_length_le (s : List Char) : (fixSub s).length ≤ s.length := by
  induction s using fixSub.induct with
  | case1 => rw [fixSub_nil]
  | case2 c rest hp ih =>
      rw [fixSub_cons_pos hp]
      have hple := hp.length_le
      rw [oldPattern_length] at hple
      simp only [List.length_append, List.length_drop, List.length_cons,
        newLine_length, oldPattern_length] at *
      omega
  | case3 c rest hp ih =>
      rw [fixSub_cons_neg hp]
      simp only [List.length_cons]
      omega

theorem fixSub_length_lt {s : List Char}
    (h : 1 ≤ countOccs oldPattern s) : (fixSub s).length < s.length := by
  induction s using fixSub.induct with
  | case1 => rw [countOccs_nil] at h; omega
  | case2 c rest hp ih =>
      rw [fixSub_cons_pos hp]
      have hple := hp.length_le
      rw [oldPattern_length] at hple
      have hrec := fixSub_length_le (List.drop (oldPattern.length - 1) rest)
      simp only [List.length_append, List.length_drop, List.length_cons,
        newLine_length, oldPattern_length] at *
      omega
  | case3 c rest hp ih =>
      rw [countOccs_cons, if_neg hp] at h
      rw [fixSub_cons_neg hp]
      simp only [List.length_cons]
      exact Nat.succ_lt_succ (ih (by omega))

/-! ### Line structure -/

theorem no_newline_oldPattern : ∀ a ∈ oldPattern, a ≠ '\n' := by decide

theorem no_newline_newLine : ∀ a ∈ newLine, a ≠ '\n' := by decide

theorem linesOf_nil : linesOf [] = [[]] := rfl

theorem linesOf_newline_cons (rest : List Char) :
    linesOf ('\n' :: rest) = [] :: linesOf rest := by
  rw [linesOf]
  simp

theorem linesOf_cons_of_ne {c : Char} (hc : c ≠ '\n') (rest : List Char)
    {h : List Char} {l : List (List Char)} (hr : linesOf rest = h :: l) :
    linesOf (c :: rest) = (c :: h) :: l := by
  rw [linesOf, if_neg hc, hr]

theorem linesOf_ne_nil (s : List Char) : linesOf s ≠ [] := by
  cases s with
  | nil => simp [linesOf_nil]
  | cons c rest =>
      by_cases hc : c = '\n'
      · subst hc
        rw [linesOf_newline_cons]
        simp
      · cases hr : linesOf rest with
        | nil =>
            rw [linesOf, if_neg hc, hr]
            simp
        | cons h l =>
            rw [linesOf_cons_of_ne hc rest hr]
            simp

theorem linesOf_head_pref :
    ∀ (s : List Char) {h : List Char} {t : List (List Char)},
      linesOf s = h :: t → h <+: s := by
  intro s
  induction s with
  | nil =>
      intro h t he
      rw [linesOf_nil] at he
      injection he with h1 _
      rw [← h1]
  | cons c rest ih =>
      intro h t he
      by_cases hc : c = '\n'
      · subst hc
        rw [linesOf_newline_cons] at he
        injection he with h1 _
        rw [← h1]
        exact List.nil_prefix
      · cases hr : linesOf rest with
        | nil => exact absurd hr (linesOf_ne_nil rest)
        | cons h2 t2 =>
            rw [linesOf_cons_of_ne hc rest hr] at he
            injection he with h1 _
            rw [← h1]
            exact List.cons_prefix_cons.mpr ⟨rfl, ih hr⟩

theorem linesOf_append_no_newline :
    ∀ (x : List Char) {t h : List Char} {l : List (List Char)},
      (∀ a ∈ x, a ≠ '\n') → linesOf t = h :: l →
      linesOf (x ++ t) = (x ++ h) :: l := by
  intro x
  induction x with
  | nil =>
      intro t h l _ ht
      simpa using ht
  | cons c x' ih =>
      intro t h l hx ht
      have hc : c ≠ '\n' := hx c (by simp)
      have hx' : ∀ a ∈ x', a ≠ '\n' := fun a ha => hx a (by simp [ha])
      rw [List.cons_append,
        linesOf_cons_of_ne hc (x' ++ t) (ih hx' ht), List.cons_append]

/-- The substitution respects line structure: it acts on each line
independently (no match spans a newline, since the pattern contains no
newline character). -/
theorem linesOf_fixSub (s : List Char) :
    linesOf (fixSub s) = (linesOf s).map fixSub := by
  induction s using fixSub.induct with
  | case1 =>
      rw [fixSub_nil, linesOf_nil]
      simp [fixSub_nil]
  | case2 c rest hp ih =>
      obtain ⟨t, hst⟩ := hp
      have hdrop : List.drop (oldPattern.length - 1) rest = t := by
        have h79 : List.drop oldPattern.length (oldPattern ++ t) = t :=
          List.drop_left oldPattern t
        rw [hst, oldPattern_length] at h79
        rw [← h79, oldPattern_length]
        rw [show (79 : Nat) = 78 + 1 from rfl, List.drop_succ_cons]
      rw [hdrop] at ih
      have hp' : oldPattern <+: (c :: rest) := ⟨t, hst⟩
      rw [fixSub_cons_pos hp', hdrop, ← hst]
      obtain ⟨h0, l0, hl0⟩ : ∃ h0 l0, linesOf t = h0 :: l0 := by
        cases hlt : linesOf t with
        | nil => exact absurd hlt (linesOf_ne_nil t)
        | cons a b => exact ⟨a, b, rfl⟩
      rw [hl0] at ih
      obtain ⟨h1, l1, hl1⟩ : ∃ h1 l1, linesOf (fixSub t) = h1 :: l1 := by
        cases hlt : linesOf (fixSub t) with
        | nil => exact absurd hlt (linesOf_ne_nil (fixSub t))
        | cons a b => exact ⟨a, b, rfl⟩
      rw [hl1] at ih
      injection ih with ihh iht
      rw [linesOf_append_no_newline newLine no_newline_newLine hl1,
        linesOf_append_no_newline oldPattern no_newline_oldPattern hl0]
      rw [List.map_cons]
      have : fixSub (oldPattern ++ h0) = newLine ++ fixSub h0 := by
        rw [fixSub_pref (List.prefix_append oldPattern h0), List.drop_left]
      rw [this, ihh, iht]
  | case3 c rest hp ih =>
      rw [fixSub_cons_neg hp]
      by_cases hc : c = '\n'
      · subst hc
        rw [linesOf_newline_cons, linesOf_newline_cons, List.map_cons, ih,
          fixSub_nil]
      · obtain ⟨h0, l0, hl0⟩ : ∃ h0 l0, linesOf rest = h0 :: l0 := by
          cases hlt : linesOf rest with
          | nil => exact absurd hlt (linesOf_ne_nil rest)
          | cons a b => exact ⟨a, b, rfl⟩
        rw [hl0] at ih
        obtain ⟨h1, l1, hl1⟩ : ∃ h1 l1, linesOf (fixSub rest) = h1 :: l1 := by
          cases hlt : linesOf (fixSub rest) with
          | nil => exact absurd hlt (linesOf_ne_nil (fixSub rest))
          | cons a b => exact ⟨a, b, rfl⟩
        rw [hl1] at ih
        injection ih with ihh iht
        rw [linesOf_cons_of_ne hc (fixSub rest) hl1,
          linesOf_cons_of_ne hc rest hl0, List.map_cons]
        have hnp : ¬ oldPattern <+: (c :: h0) := by
          intro hpre
          exact hp (hpre.trans (List.cons_prefix_cons.mpr ⟨rfl, linesOf_head_pref rest hl0⟩))
        rw [fixSub_cons_neg hnp, ihh, iht]

/-! ### The claims -/

/-- C1: an input containing exactly one occurrence of the pattern,
embedded in arbitrary surrounding text, comes out with that occurrence
replaced by `return text;` and every surrounding character unchanged. -/
theorem claim_C1_substitution_single (a b : List Char)
    (h : countOccs oldPattern (a ++ oldPattern ++ b) = 1) :
    reSub (a ++ oldPattern ++ b) = a ++ newLine ++ b := by
  rw [List.append_assoc] at h ⊢
  rw [reSub_eq_fixSub]
  rw [List.append_assoc]
  exact fixSub_single a b h

theorem claim_C1_witness :
    reSub ([' '] ++ oldPattern ++ [' ']) = [' '] ++ newLine ++ [' '] :=
  claim_C1_substitution_single [' '] [' '] (by decide)

/-- C2: the substitution is idempotent, because its output never
contains an occurrence of the pattern. -/
theorem claim_C2_idempotent (s : List Char) :
    countOccs oldPattern (reSub s) = 0 ∧ reSub (reSub s) = reSub s := by
  rw [reSub_eq_fixSub, reSub_eq_fixSub]
  exact ⟨countOccs_fixSub s, fixSub_idem s⟩

/-- C3: with zero occurrences of the pattern the substituted content is
identical to the input, and the write still happens: the file is
rewritten with the same content and the status lines still print. -/
theorem claim_C3_no_match_passthrough (s : List Char) (out : List (List Char))
    (h : countOccs oldPattern s = 0) :
    runScript ⟨FileState.text s, out⟩ =
      (none, ⟨FileState.text s, out ++ [successMsg, countMsg]⟩) := by
  have hrun : runScript ⟨FileState.text s, out⟩ =
      (none, ⟨FileState.text (reSub s), out ++ [successMsg, countMsg]⟩) := rfl
  rw [hrun, reSub_eq_fixSub, fixSub_of_countOccs_zero s h]

theorem claim_C3_witness :
    runScript ⟨FileState.text "hi".data, []⟩ =
      (none, ⟨FileState.text "hi".data, [] ++ [successMsg, countMsg]⟩) :=
  claim_C3_no_match_passthrough "hi".data [] (by decide)

/-- C4: the substitution is global: with two occurrences of the pattern
in different places, both are replaced; the result is a function of the
input alone, so it does not depend on any replacement order. -/
theorem claim_C4_global_substitution (a b c : List Char)
    (h : countOccs oldPattern (a ++ oldPattern ++ b ++ oldPattern ++ c) = 2) :
    reSub (a ++ oldPattern ++ b ++ oldPattern ++ c) =
      a ++ newLine ++ b ++ newLine ++ c := by
  simp only [List.append_assoc] at h ⊢
  rw [reSub_eq_fixSub]
  exact fixSub_double a b c h

theorem claim_C4_witness :
    reSub ([] ++ oldPattern ++ [' '] ++ oldPattern ++ []) =
      [] ++ newLine ++ [' '] ++ newLine ++ [] :=
  claim_C4_global_substitution [] [' '] []
    (by set_option maxRecDepth 4000 in decide)

/-- C5: on the concrete content consisting of exactly the problematic
line, the output is exactly `return text;`: the escaped regex really
matches that full literal line, leaving no leftover characters. -/
theorem claim_C5_concrete_scenario : reSub oldPattern = newLine := by
  rw [reSub_eq_fixSub]
  have h1 : countOccs oldPattern ([] ++ (oldPattern ++ [])) = 1 := by
    rw [List.nil_append, List.append_nil]
    decide
  have h := fixSub_single [] [] h1
  rw [List.nil_append, List.append_nil] at h
  rw [List.nil_append, List.append_nil] at h
  exact h

/-- C6: when the read fails (missing file or undecodable content) the
corresponding error is raised, nothing is written, and nothing is
printed: the world is unchanged. -/
theorem claim_C6_read_failure (w : World)
    (h : w.file = FileState.absent ∨ w.file = FileState.undecodable) :
    (runScript w).2 = w ∧
      (runScript w).1 =
        some (if w.file = FileState.absent then FileError.fileAccess
          else FileError.encoding) := by
  obtain ⟨f, out⟩ := w
  rcases h with h | h <;> simp only at h <;> subst h <;> exact ⟨rfl, rfl⟩

theorem claim_C6_witness :
    (runScript ⟨FileState.absent, []⟩).2 = ⟨FileState.absent, []⟩ ∧
      (runScript ⟨FileState.absent, []⟩).1 =
        some (if (⟨FileState.absent, []⟩ : World).file = FileState.absent
          then FileError.fileAccess else FileError.encoding) :=
  claim_C6_read_failure ⟨FileState.absent, []⟩ (Or.inl rfl)

/-- C7: every successful run prints exactly the two fixed status lines,
whatever the content was, and the second line contains no digit: no
replacement count is computed or interpolated. -/
theorem claim_C7_fixed_stdout (w : World) (content : List Char)
    (h : w.file = FileState.text content) :
    (runScript w).1 = none ∧
      (runScript w).2.stdout = w.stdout ++ [successMsg, countMsg] ∧
      ∀ ch ∈ countMsg, ¬ ch.isDigit := by
  obtain ⟨f, out⟩ := w
  simp only at h
  subst h
  exact ⟨rfl, rfl, by decide⟩

theorem claim_C7_witness :
    (runScript ⟨FileState.text [], []⟩).1 = none ∧
      (runScript ⟨FileState.text [], []⟩).2.stdout =
        (⟨FileState.text [], []⟩ : World).stdout ++ [successMsg, countMsg] ∧
      ∀ ch ∈ countMsg, ¬ ch.isDigit :=
  claim_C7_fixed_stdout ⟨FileState.text [], []⟩ [] rfl

/-- C8: the source regex is a pure literal sequence: anchored anywhere,
it matches exactly the fixed string `oldPattern` (always with that one
length), and consequently the regex substitution coincides with plain
fixed-string replacement on every content. -/
theorem claim_C8_regex_equals_literal_replace :
    (∀ s : List Char, matchLenFrom oldRegex s 0 =
        if oldPattern <+: s then some oldPattern.length else none) ∧
      ∀ s : List Char, reSub s = fixSub s :=
  ⟨matchLen_oldRegex, reSub_eq_fixSub⟩

/-- C9: neither the pattern nor the replacement contains a newline, so
the substitution preserves the line structure: the output has exactly
as many lines as the input, and any line with no occurrence of the
pattern is unchanged. -/
theorem claim_C9_line_structure (s : List Char) (i : Nat)
    (h : countOccs oldPattern ((linesOf s).getD i []) = 0) :
    ('\n' ∉ oldPattern ∧ '\n' ∉ newLine) ∧
      (linesOf (reSub s)).length = (linesOf s).length ∧
      (linesOf (reSub s)).getD i [] = (linesOf s).getD i [] := by
  refine ⟨⟨by decide, by decide⟩, ?_, ?_⟩
  · rw [reSub_eq_fixSub, linesOf_fixSub, List.length_map]
  · rw [reSub_eq_fixSub, linesOf_fixSub]
    have hm : (List.map fixSub (linesOf s)).getD i (fixSub []) =
        fixSub ((linesOf s).getD i []) := List.getD_map (linesOf s) [] fixSub
    rw [fixSub_nil] at hm
    rw [hm, fixSub_of_countOccs_zero _ h]

theorem claim_C9_witness :
    ('\n' ∉ oldPattern ∧ '\n' ∉ newLine) ∧
      (linesOf (reSub ['a'])).length = (linesOf ['a']).length ∧
      (linesOf (reSub ['a'])).getD 0 [] = (linesOf ['a']).getD 0 [] :=
  claim_C9_line_structure ['a'] 0 (by decide)

/-- C10: the substitution never lengthens the content (each match is 79
characters, each replacement 12), and it preserves the length exactly
when there is no match at all. -/
theorem claim_C10_length_nonincreasing (s : List Char) :
    (reSub s).length ≤ s.length ∧
      ((reSub s).length = s.length ↔ countOccs oldPattern s = 0) := by
  rw [reSub_eq_fixSub]
  refine ⟨fixSub_length_le s, ?_, ?_⟩
  · intro he
    by_contra hc
    have h1 : 1 ≤ countOccs oldPattern s := Nat.one_le_iff_ne_zero.mpr hc
    exact absurd he (Nat.ne_of_lt (fixSub_length_lt h1))
  · intro h0
    rw [fixSub_of_countOccs_zero s h0]
